import Mathlib

/-!
Verification of the Finvasia live trade feed
(`pyalgomate/brokers/finvasia/feed.py`).

The development shallowly embeds the feed module: the `TradeBar`
projection class, and the `LiveTradeFeed` class with its trade buffer
(`__tradeBars`), dispatch loop (`__dispatchImpl`), connection lifecycle
(`__initializeClient`, `__onDisconnected`, `start`, `stop`, `eof`).

Modelling conventions:
- Python `datetime` values become `Nat` timestamps; prices and amounts
  become `Int`.
- The insertion-ordered Python `dict` mapping timestamp to a list of
  single-instrument entries becomes an association list
  `List (Nat × List Entry)` that preserves key insertion order.
- Raising code returns `Except PyErr`; every operation also returns the
  post-call state (Python mutations survive a raised exception) and the
  list of log events it emitted.
- The external websocket transport (`wsclient`, not part of this module)
  is parameterised: the result of constructing the client thread, the
  observed iterations of the readiness wait loop, and the dequeued event
  are explicit arguments.
-/

/-- Modelled from the spec: the Trade record contract of the external
`wsclient` module (spec section 6): a trade exposes its timestamp, price,
amount, instrument identifier (through the extra-columns map, hence
optional), buy/sell flag and an id. -/
structure Trade where
  dateTime : Nat
  price : Int
  amount : Int
  instrument : Option String
  buy : Bool
  id : Nat
deriving DecidableEq

/-- A Python exception escaping one of the embedded methods. -/
inductive PyErr
  | exception (msg : String)
  | attributeError (msg : String)
  | indexError
deriving DecidableEq

instance {ε : Type u} {α : Type v} [DecidableEq ε] [DecidableEq α] :
    DecidableEq (Except ε α) := fun x y =>
  match x, y with
  | .ok a, .ok b =>
    if h : a = b then isTrue (by rw [h])
    else isFalse (by intro hh; cases hh; exact h rfl)
  | .error a, .error b =>
    if h : a = b then isTrue (by rw [h])
    else isFalse (by intro hh; cases hh; exact h rfl)
  | .ok _, .error _ => isFalse (by intro hh; cases hh)
  | .error _, .ok _ => isFalse (by intro hh; cases hh)

/-- Log events emitted through the module logger, in source order. -/
inductive LogEvent
  | initializingClient
  | errorConnecting
  | waitingInit
  | initCompleted
  | initFailed
  | reconnecting
  | stopping
  | invalidEvent
  | stoppingClient
  | errorShutdown
deriving DecidableEq

/-- Frequency constants of the external `pyalgotrade.bar` module. -/
def Frequency.TRADE : Int := -1

/-- Embeds the `TradeBar` class (feed.py lines 17-72): a bar wrapper
holding the trade it was built from, with `__dateTime` captured at
construction time. -/
structure TradeBar where
  dateTime : Nat
  trade : Trade
deriving DecidableEq

/-- Embeds `TradeBar.__init__`. -/
def TradeBar.ofTrade (t : Trade) : TradeBar :=
  ⟨t.dateTime, t⟩

/-- Embeds `TradeBar.getInstrument`. -/
def TradeBar.getInstrument (b : TradeBar) : Option String :=
  b.trade.instrument

/-- Embeds `TradeBar.setUseAdjustedValue`: raises when asked for adjusted
values, otherwise a no-op. -/
def TradeBar.setUseAdjustedValue (_b : TradeBar) (useAdjusted : Bool) :
    Except PyErr Unit :=
  if useAdjusted then .error (.exception "Adjusted close is not available")
  else .ok ()

/-- Embeds `TradeBar.getTrade`. -/
def TradeBar.getTrade (b : TradeBar) : Trade :=
  b.trade

/-- Embeds `TradeBar.getTradeId`. -/
def TradeBar.getTradeId (b : TradeBar) : Nat :=
  b.trade.id

/-- Embeds `TradeBar.getFrequency`. -/
def TradeBar.getFrequency (_b : TradeBar) : Int :=
  Frequency.TRADE

/-- Embeds `TradeBar.getDateTime`. -/
def TradeBar.getDateTime (b : TradeBar) : Nat :=
  b.dateTime

/-- Embeds `TradeBar.getOpen`. -/
def TradeBar.getOpen (b : TradeBar) : Int :=
  b.trade.price

/-- Embeds `TradeBar.getHigh`. -/
def TradeBar.getHigh (b : TradeBar) : Int :=
  b.trade.price

/-- Embeds `TradeBar.getLow`. -/
def TradeBar.getLow (b : TradeBar) : Int :=
  b.trade.price

/-- Embeds `TradeBar.getClose`. -/
def TradeBar.getClose (b : TradeBar) : Int :=
  b.trade.price

/-- Embeds `TradeBar.getVolume`. -/
def TradeBar.getVolume (b : TradeBar) : Int :=
  b.trade.amount

/-- Embeds `TradeBar.getAdjClose`: always Python `None`. -/
def TradeBar.getAdjClose (_b : TradeBar) : Option Int :=
  none

/-- Embeds `TradeBar.getTypicalPrice`. -/
def TradeBar.getTypicalPrice (b : TradeBar) : Int :=
  b.trade.price

/-- Embeds `TradeBar.getPrice`. -/
def TradeBar.getPrice (b : TradeBar) : Int :=
  b.trade.price

/-- Embeds `TradeBar.getUseAdjValue`: always `False`. -/
def TradeBar.getUseAdjValue (_b : TradeBar) : Bool :=
  false

/-- Embeds `TradeBar.isBuy`. -/
def TradeBar.isBuy (b : TradeBar) : Bool :=
  b.trade.buy

/-- Embeds `TradeBar.isSell`. -/
def TradeBar.isSell (b : TradeBar) : Bool :=
  !b.trade.buy

/-- A buffered entry: the singleton dict mapping the trade instrument to
the trade, as appended by `__onTrade`. -/
abbrev Entry := Option String × Trade

/-- The `__tradeBars` structure: an insertion-ordered mapping from
timestamp to the list of entries buffered for that timestamp. -/
abbrev Buffer := List (Nat × List Entry)

/-- The entry `__onTrade` builds from a trade. -/
def tradeEntry (t : Trade) : Entry :=
  (t.instrument, t)

/-- Embeds the `__tradeBars` mutation performed by `__onTrade`: create the
key with an empty list when absent, then append the entry; a fresh key
lands at the end of the dict. -/
def bufferInsert (buf : Buffer) (dt : Nat) (e : Entry) : Buffer :=
  match buf with
  | [] => [(dt, [e])]
  | (k, l) :: rest =>
    if k = dt then (k, l ++ [e]) :: rest
    else (k, l) :: bufferInsert rest dt e

/-- The list buffered under a timestamp key (empty when absent). -/
def lookupGroup (buf : Buffer) (dt : Nat) : List Entry :=
  match buf with
  | [] => []
  | (k, l) :: rest => if k = dt then l else lookupGroup rest dt

/-- One insertion step of the stable sort used to model
`dict(sorted(self.__tradeBars.items()))`: the new group goes after every
group with a key less than or equal to its own. -/
def sortIns (g : Nat × List Entry) : Buffer → Buffer
  | [] => [g]
  | h :: t => if g.1 ≤ h.1 then g :: h :: t else h :: sortIns g t

/-- Embeds `dict(sorted(self.__tradeBars.items()))`: sorting the buffer by
its timestamp keys.  Dict keys are pairwise distinct, so any sort by key
agrees with the Python sort. -/
def sortBuf (b : Buffer) : Buffer :=
  b.foldr sortIns []

/-- All entries of the buffer, in group order. -/
def flattenEntries : Buffer → List Entry
  | [] => []
  | g :: rest => g.2 ++ flattenEntries rest

/-- All entries of the buffer, each paired with its timestamp key. -/
def flattenKeyed : Buffer → List (Nat × Entry)
  | [] => []
  | g :: rest => g.2.map (fun e => (g.1, e)) ++ flattenKeyed rest

/-- Total number of buffered entries. -/
def totalSize : Buffer → Nat
  | [] => 0
  | g :: rest => g.2.length + totalSize rest

/-- The buffer never maps a timestamp to an empty list. -/
def NoEmpty (b : Buffer) : Prop :=
  ∀ g ∈ b, g.2 ≠ []

/-- The timestamp keys are pairwise distinct (a dict invariant). -/
def DistinctKeys (b : Buffer) : Prop :=
  List.Pairwise (fun g h => g.1 ≠ h.1) b

/-- The groups appear in weakly increasing key order. -/
def KeysSorted (b : Buffer) : Prop :=
  List.Pairwise (fun g h => g.1 ≤ h.1) b

/-- The groups appear in strictly increasing key order. -/
def KeysStrictSorted (b : Buffer) : Prop :=
  List.Pairwise (fun g h => g.1 < h.1) b

instance : DecidablePred NoEmpty := fun b =>
  List.decidableBAll _ b

instance : DecidablePred DistinctKeys := fun b =>
  List.instDecidablePairwise b

/-- The three event tags read from the transport queue, plus an
unconstrained tag for anything else the queue might carry. -/
inductive EventType
  | TRADE
  | ORDER_BOOK_UPDATE
  | DISCONNECTED
  | other (tag : Nat)
deriving DecidableEq

/-- A dequeued `(eventType, eventData)` pair, as a sum following the queue
protocol: trades carry a Trade, order book updates an opaque payload,
disconnections nothing, and unknown tags an arbitrary payload. -/
inductive Event
  | trade (t : Trade)
  | orderBookUpdate (payload : Nat)
  | disconnected
  | other (tag : Nat) (payload : Nat)
deriving DecidableEq

/-- The tag of a queue event. -/
def Event.eventType : Event → EventType
  | .trade _ => .TRADE
  | .orderBookUpdate _ => .ORDER_BOOK_UPDATE
  | .disconnected => .DISCONNECTED
  | .other tag _ => .other tag

/-- Whether `__dispatchImpl` has a handler branch for the event (the
TRADE, ORDER_BOOK_UPDATE and DISCONNECTED cases). -/
def Event.isMeaningful : Event → Bool
  | .other _ _ => false
  | _ => true

/-- Embeds the state of a `LiveTradeFeed` instance: the trade buffer, the
websocket client thread reference (a thread id when present), the
reconnection flag and the stop flag. -/
structure LiveTradeFeed where
  tradeBars : Buffer
  thread : Option Nat
  enableReconnection : Bool
  stopped : Bool
deriving DecidableEq

/-- Embeds `LiveTradeFeed.__init__`: empty buffer, no thread, reconnection
enabled, not stopped. -/
def LiveTradeFeed.initial : LiveTradeFeed :=
  ⟨[], none, true, false⟩

/-- Embeds `enableReconection` (spelled as in the source). -/
def LiveTradeFeed.enableReconection (s : LiveTradeFeed) (b : Bool) :
    LiveTradeFeed :=
  { s with enableReconnection := b }

/-- Embeds `eof`. -/
def LiveTradeFeed.eof (s : LiveTradeFeed) : Bool :=
  s.stopped

/-- Embeds `barsHaveAdjClose`. -/
def LiveTradeFeed.barsHaveAdjClose (_s : LiveTradeFeed) : Bool :=
  false

/-- Embeds `peekDateTime`: always Python `None`. -/
def LiveTradeFeed.peekDateTime (_s : LiveTradeFeed) : Option Nat :=
  none

/-- Embeds `__onTrade`: append the singleton instrument-to-trade dict
under the trade timestamp. -/
def LiveTradeFeed.onTrade (s : LiveTradeFeed) (t : Trade) : LiveTradeFeed :=
  { s with tradeBars := bufferInsert s.tradeBars t.dateTime (tradeEntry t) }

/-- Embeds `getNextBars`: when the buffer is nonempty, re-sort it by key,
pop the first entry of the earliest group (an `IndexError` would escape if
that group were empty), and drop the key once its list is exhausted. -/
def LiveTradeFeed.getNextBars (s : LiveTradeFeed) :
    Except PyErr (Option Entry × LiveTradeFeed) :=
  match s.tradeBars with
  | [] => .ok (none, s)
  | _ :: _ =>
    match sortBuf s.tradeBars with
    | [] => .ok (none, s)
    | (dt, group) :: rest =>
      match group with
      | [] => .error .indexError
      | e :: remaining =>
        let newBuf := if remaining = [] then rest else (dt, remaining) :: rest
        .ok (some e, { s with tradeBars := newBuf })

/-- Folding a trade sequence through `__onTrade` starting from a fresh
buffer. -/
def buildBuffer (trades : List Trade) : Buffer :=
  trades.foldl (fun b t => bufferInsert b t.dateTime (tradeEntry t)) []

/-- A fresh feed after processing a sequence of TRADE events. -/
def buildFeed (trades : List Trade) : LiveTradeFeed :=
  trades.foldl (fun s t => s.onTrade t) LiveTradeFeed.initial

/-- Repeated `getNextBars` calls, collecting the emitted entries and the
final state; the fuel bounds the number of calls. -/
def drainFuel : Nat → LiveTradeFeed → List Entry × LiveTradeFeed
  | 0, s => ([], s)
  | Nat.succ n, s =>
    match s.getNextBars with
    | .ok (some e, s1) =>
      let r := drainFuel n s1
      (e :: r.1, r.2)
    | .ok (none, s1) => ([], s1)
    | .error _ => ([], s)

/-- Calling `getNextBars` until the buffer is exhausted. -/
def LiveTradeFeed.drainAll (s : LiveTradeFeed) : List Entry × LiveTradeFeed :=
  drainFuel (totalSize s.tradeBars) s

/-- One insertion step of the reference stable sort on trades, written
from the spec ordering guarantee: a later trade goes after every already
placed trade whose timestamp is less than or equal to its own, so equal
timestamps keep arrival order. -/
def tradeInsLast (x : Trade) : List Trade → List Trade
  | [] => [x]
  | y :: ys =>
    if y.dateTime ≤ x.dateTime then y :: tradeInsLast x ys else x :: y :: ys

/-- Reference order of the spec: the trade sequence stably sorted by
timestamp (non-decreasing timestamps, FIFO between equal timestamps). -/
def stableSortByDateTime (l : List Trade) : List Trade :=
  l.foldl (fun acc t => tradeInsLast t acc) []

/-- Keyed variant of the stable insertion step, used to relate the buffer
contents to the reference order. -/
def insLastK (x : Nat × Entry) : List (Nat × Entry) → List (Nat × Entry)
  | [] => [x]
  | y :: ys => if y.1 ≤ x.1 then y :: insLastK x ys else x :: y :: ys

/-- Proof-side description of inserting into an already sorted buffer:
append to the group with the same key, or place a fresh singleton group
before the first larger key. -/
def sortedUpdate (S : Buffer) (dt : Nat) (e : Entry) : Buffer :=
  match S with
  | [] => [(dt, [e])]
  | (k, l) :: rest =>
    if k = dt then (k, l ++ [e]) :: rest
    else if dt < k then (dt, [e]) :: (k, l) :: rest
    else (k, l) :: sortedUpdate rest dt e

/-- One observed iteration of the `__initializeClient` wait loop, as a
pair: the value of the stop flag read by the loop condition, and the
result of `waitInitialized` for that iteration.  The stop flag is read
across threads, so it is an observation rather than a state field. -/
abbrev WaitStep := Bool × Bool

/-- Embeds the `while not initialized and not self.__stopped` wait loop of
`__initializeClient` over a finite observation trace.  Returns
`some true` when a poll reported readiness, `some false` when the stop
flag was observed, `none` when the trace ends with the loop still
running, and an `AttributeError` when the loop polls a `None` thread. -/
def waitInit (thread : Option Nat) : List WaitStep → Except PyErr (Option Bool)
  | [] => .ok none
  | (stObs, poll) :: rest =>
    if stObs then .ok (some false)
    else
      match thread with
      | none => .error (.attributeError "NoneType has no attribute waitInitialized")
      | some _ => if poll then .ok (some true) else waitInit thread rest

/-- A trace of wait-loop observations is consistent with the stop flag of
a single-threaded run: when the feed is already stopped the loop can only
ever observe a raised stop flag (the flag is never cleared). -/
def ValidTrace (stopped : Bool) (steps : List WaitStep) : Prop :=
  stopped = true → ∀ p ∈ steps, p.1 = true

/-- Embeds `__initializeClient` (feed.py lines 119-137).  `build` is the
outcome of constructing and starting the websocket client thread (the
try block); a construction failure is caught and logged, after which the
wait loop runs against the unchanged thread reference.  The result is
`some initialized` when the loop exited within the observed trace. -/
def LiveTradeFeed.initializeClient (s : LiveTradeFeed)
    (build : Except String Nat) (steps : List WaitStep) :
    Except PyErr (Option Bool) × LiveTradeFeed × List LogEvent :=
  let s1 : LiveTradeFeed :=
    match build with
    | .ok tid => { s with thread := some tid }
    | .error _ => s
  let buildLogs : List LogEvent :=
    match build with
    | .ok _ => [.initializingClient]
    | .error _ => [.initializingClient, .errorConnecting]
  let lg := buildLogs ++ [.waitingInit]
  match waitInit s1.thread steps with
  | .error e => (.error e, s1, lg)
  | .ok none => (.ok none, s1, lg)
  | .ok (some b) =>
    (.ok (some b), s1, lg ++ [if b then .initCompleted else .initFailed])

/-- One reconnection attempt: the transport construction outcome and the
wait-loop trace passed to `__initializeClient`. -/
abbrev Attempt := Except String Nat × List WaitStep

/-- Embeds the `while not self.__stopped and not self.__initializeClient()`
retry loop of `__onDisconnected`, one attempt per trace element;
`.ok none` means the loop (or an inner wait loop) is still running when
the observations end. -/
def LiveTradeFeed.reconnectLoop (s : LiveTradeFeed) :
    List Attempt → Except PyErr (Option Unit) × LiveTradeFeed × List LogEvent
  | [] => if s.stopped then (.ok (some ()), s, []) else (.ok none, s, [])
  | (build, steps) :: rest =>
    if s.stopped then (.ok (some ()), s, [])
    else
      match s.initializeClient build steps with
      | (.error e, s1, lg) => (.error e, s1, lg)
      | (.ok none, s1, lg) => (.ok none, s1, lg)
      | (.ok (some true), s1, lg) => (.ok (some ()), s1, lg)
      | (.ok (some false), s1, lg) =>
        match s1.reconnectLoop rest with
        | (r, s2, lg2) => (r, s2, lg ++ lg2)

/-- Embeds `__onDisconnected` (feed.py lines 139-146): with reconnection
enabled, retry initialization until stopped or initialized; otherwise
mark the feed stopped if it is not already. -/
def LiveTradeFeed.onDisconnected (s : LiveTradeFeed) (attempts : List Attempt) :
    Except PyErr (Option Unit) × LiveTradeFeed × List LogEvent :=
  if s.enableReconnection then
    match s.reconnectLoop attempts with
    | (r, s1, lg) => (r, s1, .reconnecting :: lg)
  else if s.stopped then (.ok (some ()), s, [])
  else (.ok (some ()), { s with stopped := true }, [.stopping])

/-- The event routing of `__dispatchImpl` after the filter check: TRADE
feeds the buffer, ORDER_BOOK_UPDATE is forwarded to the observer event,
DISCONNECTED delegates to `__onDisconnected`, and any other tag is logged
as invalid with `ret = False`. -/
def LiveTradeFeed.routeEvent (s : LiveTradeFeed) (ev : Event)
    (attempts : List Attempt) :
    Except PyErr (Option Bool) × LiveTradeFeed × List LogEvent :=
  match ev with
  | .trade t => (.ok (some true), s.onTrade t, [])
  | .orderBookUpdate _ => (.ok (some true), s, [])
  | .disconnected =>
    match s.onDisconnected attempts with
    | (.error e, s1, lg) => (.error e, s1, lg)
    | (.ok none, s1, lg) => (.ok none, s1, lg)
    | (.ok (some _), s1, lg) => (.ok (some true), s1, lg)
  | .other _ _ => (.ok (some false), s, [.invalidEvent])

/-- Embeds `__dispatchImpl` (feed.py lines 148-169).  `dequeued` is the
outcome of the bounded-timeout queue read: `none` when the queue raised
`Empty` (absorbed, returning `False`), otherwise the single dequeued
event.  A supplied filter that excludes the event type consumes the event
and returns `False` before any routing. -/
def LiveTradeFeed.dispatchImpl (s : LiveTradeFeed) (dequeued : Option Event)
    (eventFilter : Option (List EventType)) (attempts : List Attempt) :
    Except PyErr (Option Bool) × LiveTradeFeed × List LogEvent :=
  match dequeued with
  | none => (.ok (some false), s, [])
  | some ev =>
    match eventFilter with
    | some f =>
      if ev.eventType ∈ f then s.routeEvent ev attempts
      else (.ok (some false), s, [])
    | none => s.routeEvent ev attempts

/-- Embeds `start` (feed.py lines 199-205): raise when a thread already
exists, otherwise run `__initializeClient`; when it reports failure, set
the stop flag and then raise. -/
def LiveTradeFeed.start (s : LiveTradeFeed) (build : Except String Nat)
    (steps : List WaitStep) :
    Except PyErr (Option Unit) × LiveTradeFeed × List LogEvent :=
  match s.thread with
  | some _ => (.error (.exception "Already running"), s, [])
  | none =>
    match s.initializeClient build steps with
    | (.error e, s1, lg) => (.error e, s1, lg)
    | (.ok none, s1, lg) => (.ok none, s1, lg)
    | (.ok (some true), s1, lg) => (.ok (some ()), s1, lg)
    | (.ok (some false), s1, lg) =>
      (.error (.exception "Initialization failed"),
       { s1 with stopped := true }, lg)

/-- Embeds `stop` (feed.py lines 218-225): set the stop flag; when a
thread exists and is alive, request its termination (`threadAlive` is the
`is_alive()` observation, `stopRaises` whether `thread.stop()` throws —
any such failure is caught and logged).  The middle component records
whether termination was requested. -/
def LiveTradeFeed.stop (s : LiveTradeFeed) (threadAlive : Bool)
    (stopRaises : Bool) : LiveTradeFeed × Bool × List LogEvent :=
  let s1 := { s with stopped := true }
  if s.thread.isSome && threadAlive then
    if stopRaises then (s1, true, [.stoppingClient, .errorShutdown])
    else (s1, true, [.stoppingClient])
  else (s1, false, [])

/-- Modelled from the spec: the downstream consumer drives the dispatch
loop cooperatively and keeps invoking dispatch only while `eof()` is
false (spec sections 4.3 and 5); reconnection traces are irrelevant here
and left empty. -/
def runDriver (s : LiveTradeFeed) : List Event → LiveTradeFeed
  | [] => s
  | ev :: rest =>
    if s.eof then s
    else runDriver (s.dispatchImpl (some ev) none []).2.1 rest

/-- The timestamp keys of the buffer, in order. -/
def bufKeys (b : Buffer) : List Nat :=
  b.map Prod.fst

/-- Whether an event passes the optional event-type filter of
`__dispatchImpl` (no filter lets everything through). -/
def passesFilter (eventFilter : Option (List EventType)) (ev : Event) : Prop :=
  match eventFilter with
  | none => True
  | some f => ev.eventType ∈ f

instance (eventFilter : Option (List EventType)) (ev : Event) :
    Decidable (passesFilter eventFilter ev) :=
  match eventFilter with
  | none => isTrue trivial
  | some f => (inferInstance : Decidable (ev.eventType ∈ f))

/-- Sample trade used by the witnesses. -/
def sampleTrade : Trade :=
  ⟨20, 150, 5, some "AAPL", true, 1⟩

/-- Second sample trade, sharing the first timestamp. -/
def sampleTrade2 : Trade :=
  ⟨20, 151, 3, some "AAPL", false, 2⟩

/-- Third sample trade, with an earlier timestamp. -/
def sampleTrade3 : Trade :=
  ⟨10, 90, 2, some "SBIN", true, 3⟩

theorem lookupGroup_bufferInsert (b : Buffer) (dt : Nat) (e : Entry) :
    lookupGroup (bufferInsert b dt e) dt = lookupGroup b dt ++ [e] := by
  induction b with
  | nil => simp [bufferInsert, lookupGroup]
  | cons g rest ih =>
    obtain ⟨k, l⟩ := g
    by_cases h : k = dt
    · subst h
      simp [bufferInsert, lookupGroup]
    · simp [bufferInsert, lookupGroup, h, ih]

/-- C2: every TRADE event processed inserts, under the trade timestamp, an
entry tagged by the trade instrument and holding the trade; the entry a
fresh feed then emits from `getNextBars` is exactly that one, and the bar
projection of a trade has open, high, low and close equal to the trade
price, volume equal to the trade amount, the trade timestamp, and the
TRADE frequency tag. -/
theorem onTrade_inserts_projected_bar :
    (∀ (s : LiveTradeFeed) (t : Trade),
        lookupGroup (s.onTrade t).tradeBars t.dateTime
          = lookupGroup s.tradeBars t.dateTime ++ [(t.instrument, t)])
    ∧ (∀ t : Trade,
        (LiveTradeFeed.initial.onTrade t).getNextBars
          = .ok (some (t.instrument, t), LiveTradeFeed.initial))
    ∧ (∀ t : Trade,
        (TradeBar.ofTrade t).getOpen = t.price
        ∧ (TradeBar.ofTrade t).getHigh = t.price
        ∧ (TradeBar.ofTrade t).getLow = t.price
        ∧ (TradeBar.ofTrade t).getClose = t.price
        ∧ (TradeBar.ofTrade t).getVolume = t.amount
        ∧ (TradeBar.ofTrade t).getDateTime = t.dateTime
        ∧ (TradeBar.ofTrade t).getFrequency = Frequency.TRADE) := by
  refine ⟨fun s t => ?_, fun t => ?_, fun t => ?_⟩
  · exact lookupGroup_bufferInsert s.tradeBars t.dateTime (tradeEntry t)
  · rfl
  · exact ⟨rfl, rfl, rfl, rfl, rfl, rfl, rfl⟩

/-- C9: a dispatch call that finds the event queue empty returns `False`
and leaves the feed state untouched: same trade buffer, same thread
reference, same reconnection flag, same stop flag, and nothing logged. -/
theorem dispatchImpl_emptyQueue_noEffect :
    ∀ (s : LiveTradeFeed) (eventFilter : Option (List EventType))
      (attempts : List Attempt),
      s.dispatchImpl none eventFilter attempts = (.ok (some false), s, []) :=
  fun _ _ _ => rfl

/-- C10: adjusted-close values are never available at the feed surface:
`setUseAdjustedValue True` raises, `setUseAdjustedValue False` succeeds
returning unit, `getAdjClose` is `None`, `getUseAdjValue` is `False`, and
`barsHaveAdjClose` is `False`. -/
theorem adjustedClose_never_available :
    (∀ b : TradeBar,
        b.setUseAdjustedValue true
          = .error (.exception "Adjusted close is not available"))
    ∧ (∀ b : TradeBar, b.setUseAdjustedValue false = .ok ())
    ∧ (∀ b : TradeBar, b.getAdjClose = none)
    ∧ (∀ b : TradeBar, b.getUseAdjValue = false)
    ∧ (∀ s : LiveTradeFeed, s.barsHaveAdjClose = false) :=
  ⟨fun _ => rfl, fun _ => rfl, fun _ => rfl, fun _ => rfl, fun _ => rfl⟩

/-- C7: `stop` never raises (it is a total function on states): it always
produces the same state with the stop flag set, it is idempotent, it
requests transport termination exactly when a thread exists and is alive,
and a failure inside `thread.stop()` is absorbed and logged. -/
theorem stop_total_idempotent :
    (∀ (s : LiveTradeFeed) (a r : Bool),
        (s.stop a r).1 = { s with stopped := true })
    ∧ (∀ (s : LiveTradeFeed) (a r : Bool),
        (s.stop a r).2.1 = (s.thread.isSome && a))
    ∧ (∀ (s : LiveTradeFeed) (a r a2 r2 : Bool),
        (((s.stop a r).1).stop a2 r2).1 = (s.stop a r).1)
    ∧ (∀ (s : LiveTradeFeed) (a : Bool),
        (s.stop a true).2.1 = true →
        LogEvent.errorShutdown ∈ (s.stop a true).2.2) := by
  have h1 : ∀ (s : LiveTradeFeed) (a r : Bool),
      (s.stop a r).1 = { s with stopped := true } := by
    intro s a r
    unfold LiveTradeFeed.stop
    split
    · split <;> rfl
    · rfl
  refine ⟨h1, fun s a r => ?_, fun s a r a2 r2 => ?_, fun s a h => ?_⟩
  · unfold LiveTradeFeed.stop
    split
    · split <;> simp_all
    · simp_all
  · simp [h1]
  · unfold LiveTradeFeed.stop at h ⊢
    split at h
    · simp_all
    · simp_all

/-- C7 witness. -/
theorem stop_total_idempotent_witness :
    LogEvent.errorShutdown
      ∈ (({ LiveTradeFeed.initial with thread := some 3 }).stop true true).2.2 :=
  stop_total_idempotent.2.2.2 { LiveTradeFeed.initial with thread := some 3 }
    true (by decide)

/-- C5 evidence: on a fresh feed (no previous thread, stop flag down), a
transport construction failure is caught, but the wait loop then calls
`waitInitialized` on the still-`None` thread reference, so an
`AttributeError` escapes `__initializeClient` and `start` instead of
initialization being reported as failed; the stop flag is left down. -/
theorem initializeClient_constructionFailure_raises :
    LiveTradeFeed.initial.start (.error "boom") [(false, false)]
      = (.error (.attributeError "NoneType has no attribute waitInitialized"),
         LiveTradeFeed.initial,
         [.initializingClient, .errorConnecting, .waitingInit])
    ∧ (LiveTradeFeed.initial.initializeClient (.error "boom")
        [(false, false)]).1
      = .error (.attributeError "NoneType has no attribute waitInitialized")
    ∧ LiveTradeFeed.initial.eof = false :=
  ⟨by decide, by decide, rfl⟩

/-- C8: processing a DISCONNECTED event with reconnection disabled on a
feed that is not stopped returns normally (no exception), reports work
done, sets the stop flag so `eof()` becomes true, and — since the
cooperative driver invokes dispatch only while `eof()` is false — no
further TRADE event is ever processed afterwards. -/
theorem disconnected_reconnectionDisabled_stops :
    (∀ (s : LiveTradeFeed) (attempts : List Attempt),
        s.enableReconnection = false → s.stopped = false →
        s.dispatchImpl (some .disconnected) none attempts
          = (.ok (some true), { s with stopped := true }, [.stopping])
        ∧ ({ s with stopped := true } : LiveTradeFeed).eof = true)
    ∧ (∀ (s : LiveTradeFeed) (evs : List Event),
        s.eof = true → runDriver s evs = s) := by
  constructor
  · intro s attempts h1 h2
    constructor
    · simp [LiveTradeFeed.dispatchImpl, LiveTradeFeed.routeEvent,
        LiveTradeFeed.onDisconnected, h1, h2]
    · rfl
  · intro s evs h
    cases evs with
    | nil => rfl
    | cons ev rest => simp [runDriver, LiveTradeFeed.eof] at h ⊢; simp [h]

/-- C8 witness. -/
theorem disconnected_reconnectionDisabled_stops_witness :
    (({ LiveTradeFeed.initial with enableReconnection := false }
        : LiveTradeFeed).dispatchImpl (some .disconnected) none []
      = (.ok (some true),
         { { LiveTradeFeed.initial with enableReconnection := false }
             with stopped := true },
         [.stopping]))
    ∧ runDriver { LiveTradeFeed.initial with stopped := true }
        [.trade sampleTrade]
      = { LiveTradeFeed.initial with stopped := true } :=
  ⟨(disconnected_reconnectionDisabled_stops.1
      { LiveTradeFeed.initial with enableReconnection := false } []
      (by decide) (by decide)).1,
   disconnected_reconnectionDisabled_stops.2
     { LiveTradeFeed.initial with stopped := true } [.trade sampleTrade]
     (by decide)⟩

/-- C4: `__dispatchImpl` consumes at most the one dequeued event: an empty
queue read returns `False` unchanged; a supplied filter that excludes the
event type consumes the event and returns `False`; an unknown tag that
reaches routing is logged as invalid and returns `False`; and whenever
the call returns normally, it reports `True` exactly when the dequeued
event passed the filter and was one of TRADE, ORDER_BOOK_UPDATE or
DISCONNECTED. -/
theorem dispatchImpl_contract :
    (∀ (s : LiveTradeFeed) (eventFilter : Option (List EventType))
        (attempts : List Attempt),
        s.dispatchImpl none eventFilter attempts = (.ok (some false), s, []))
    ∧ (∀ (s : LiveTradeFeed) (ev : Event) (f : List EventType)
        (attempts : List Attempt), ev.eventType ∉ f →
        s.dispatchImpl (some ev) (some f) attempts
          = (.ok (some false), s, []))
    ∧ (∀ (s : LiveTradeFeed) (tag payload : Nat)
        (eventFilter : Option (List EventType)) (attempts : List Attempt),
        passesFilter eventFilter (.other tag payload) →
        s.dispatchImpl (some (.other tag payload)) eventFilter attempts
          = (.ok (some false), s, [.invalidEvent]))
    ∧ (∀ (s : LiveTradeFeed) (dequeued : Option Event)
        (eventFilter : Option (List EventType)) (attempts : List Attempt)
        (b : Bool) (s1 : LiveTradeFeed) (lg : List LogEvent),
        s.dispatchImpl dequeued eventFilter attempts = (.ok (some b), s1, lg) →
        (b = true ↔ ∃ ev, dequeued = some ev ∧ passesFilter eventFilter ev
          ∧ ev.isMeaningful = true)) := by
  refine ⟨fun s filt att => rfl, ?_, ?_, ?_⟩
  · intro s ev f att h
    simp [LiveTradeFeed.dispatchImpl, h]
  · intro s tag payload filt att h
    cases filt with
    | none => rfl
    | some f =>
      simp only [passesFilter] at h
      simp [LiveTradeFeed.dispatchImpl, LiveTradeFeed.routeEvent, h]
  · intro s dq filt att b s1 lg h
    cases dq with
    | none =>
      simp only [LiveTradeFeed.dispatchImpl, Prod.mk.injEq, Except.ok.injEq,
        Option.some.injEq] at h
      rw [← h.1]
      constructor
      · intro hb
        exact Bool.noConfusion hb
      · rintro ⟨e, he, -⟩
        cases he
    | some ev =>
      have hroute : passesFilter filt ev →
          s.routeEvent ev att = (.ok (some b), s1, lg) →
          (b = true ↔ ∃ e, (some ev = some e) ∧ passesFilter filt e
            ∧ e.isMeaningful = true) := by
        intro hpass hr
        cases ev with
        | trade t =>
          simp only [LiveTradeFeed.routeEvent, Prod.mk.injEq, Except.ok.injEq,
            Option.some.injEq] at hr
          exact ⟨fun _ => ⟨.trade t, rfl, hpass, rfl⟩, fun _ => hr.1.symm⟩
        | orderBookUpdate p =>
          simp only [LiveTradeFeed.routeEvent, Prod.mk.injEq, Except.ok.injEq,
            Option.some.injEq] at hr
          exact ⟨fun _ => ⟨.orderBookUpdate p, rfl, hpass, rfl⟩,
            fun _ => hr.1.symm⟩
        | disconnected =>
          simp only [LiveTradeFeed.routeEvent] at hr
          rcases hod : s.onDisconnected att with ⟨r, s2, lg2⟩
          rw [hod] at hr
          match r with
          | .error e => simp at hr
          | .ok none => simp at hr
          | .ok (some u) =>
            simp only [Prod.mk.injEq, Except.ok.injEq, Option.some.injEq] at hr
            exact ⟨fun _ => ⟨.disconnected, rfl, hpass, rfl⟩,
              fun _ => hr.1.symm⟩
        | other tag payload =>
          simp only [LiveTradeFeed.routeEvent, Prod.mk.injEq, Except.ok.injEq,
            Option.some.injEq] at hr
          rw [← hr.1]
          constructor
          · intro hb
            exact Bool.noConfusion hb
          · rintro ⟨e, he, -, hm⟩
            cases he
            simp [Event.isMeaningful] at hm
      cases filt with
      | none =>
        simp only [LiveTradeFeed.dispatchImpl] at h
        exact hroute trivial h
      | some f =>
        by_cases hf : ev.eventType ∈ f
        · simp only [LiveTradeFeed.dispatchImpl, if_pos hf] at h
          exact hroute hf h
        · simp only [LiveTradeFeed.dispatchImpl, if_neg hf, Prod.mk.injEq,
            Except.ok.injEq, Option.some.injEq] at h
          rw [← h.1]
          constructor
          · intro hb
            exact Bool.noConfusion hb
          · rintro ⟨e, he, hp, -⟩
            cases he
            exact absurd hp hf

/-- C4 witness. -/
theorem dispatchImpl_contract_witness :
    (LiveTradeFeed.initial.dispatchImpl (some (.trade sampleTrade))
        (some [EventType.ORDER_BOOK_UPDATE]) []
      = (.ok (some false), LiveTradeFeed.initial, []))
    ∧ (LiveTradeFeed.initial.dispatchImpl (some (.other 9 0)) none []
      = (.ok (some false), LiveTradeFeed.initial, [.invalidEvent]))
    ∧ (true = true ↔ ∃ ev, (some (Event.trade sampleTrade) = some ev)
        ∧ passesFilter none ev ∧ ev.isMeaningful = true) :=
  ⟨dispatchImpl_contract.2.1 LiveTradeFeed.initial (.trade sampleTrade)
      [EventType.ORDER_BOOK_UPDATE] [] (by decide),
   dispatchImpl_contract.2.2.1 LiveTradeFeed.initial 9 0 none [] (by decide),
   dispatchImpl_contract.2.2.2 LiveTradeFeed.initial
      (some (.trade sampleTrade)) none [] true
      (LiveTradeFeed.initial.onTrade sampleTrade) [] (by decide)⟩

theorem waitInit_ok_true (th : Option Nat) (steps : List WaitStep)
    (h : waitInit th steps = .ok (some true)) : ∃ p ∈ steps, p.1 = false := by
  cases steps with
  | nil => simp [waitInit] at h
  | cons p rest =>
    obtain ⟨stObs, poll⟩ := p
    cases stObs with
    | true => simp [waitInit] at h
    | false => exact ⟨(false, poll), List.mem_cons_self .., rfl⟩

theorem waitInit_error (th : Option Nat) (steps : List WaitStep)
    (e : PyErr) (h : waitInit th steps = .error e) :
    e = .attributeError "NoneType has no attribute waitInitialized" := by
  induction steps with
  | nil => simp [waitInit] at h
  | cons p rest ih =>
    obtain ⟨stObs, poll⟩ := p
    cases stObs with
    | true => simp [waitInit] at h
    | false =>
      cases th with
      | none =>
        simp only [waitInit, if_neg Bool.false_ne_true,
          Except.error.injEq] at h
        exact h.symm
      | some tid =>
        simp only [waitInit, if_neg Bool.false_ne_true] at h
        by_cases hp : poll = true
        · rw [if_pos hp] at h
          cases h
        · rw [if_neg hp] at h
          exact ih h

theorem initializeClient_fst (s : LiveTradeFeed) (build : Except String Nat)
    (steps : List WaitStep) :
    (s.initializeClient build steps).1
      = waitInit
          (match build with | .ok tid => some tid | .error _ => s.thread)
          steps := by
  unfold LiveTradeFeed.initializeClient
  cases build <;> dsimp only <;> split <;> simp_all

theorem initializeClient_stopped (s : LiveTradeFeed)
    (build : Except String Nat) (steps : List WaitStep) :
    ((s.initializeClient build steps).2.1).stopped = s.stopped := by
  unfold LiveTradeFeed.initializeClient
  cases build <;> dsimp only <;> split <;> rfl

/-- C6: `eof()` is false right after a successful `start()` (given a
wait-loop trace consistent with the stop flag); `eof()` is true right
after any `stop()`; `start()` on a feed that already has a transport
thread raises; and when initialization reports failure, `start()` sets
the stop flag (so `eof()` is true) before raising. -/
theorem start_eof_transitions :
    (∀ (s : LiveTradeFeed) (build : Except String Nat)
        (steps : List WaitStep) (s1 : LiveTradeFeed) (lg : List LogEvent),
        ValidTrace s.stopped steps →
        s.start build steps = (.ok (some ()), s1, lg) → s1.eof = false)
    ∧ (∀ (s : LiveTradeFeed) (a r : Bool), ((s.stop a r).1).eof = true)
    ∧ (∀ (s : LiveTradeFeed) (tid : Nat) (build : Except String Nat)
        (steps : List WaitStep), s.thread = some tid →
        s.start build steps = (.error (.exception "Already running"), s, []))
    ∧ (∀ (s : LiveTradeFeed) (build : Except String Nat)
        (steps : List WaitStep) (s1 : LiveTradeFeed) (lg : List LogEvent),
        s.start build steps
          = (.error (.exception "Initialization failed"), s1, lg) →
        s1.eof = true) := by
  refine ⟨?_, ?_, ?_, ?_⟩
  · intro s build steps s1 lg hv h
    cases ht : s.thread with
    | some tid =>
      unfold LiveTradeFeed.start at h
      rw [ht] at h
      simp at h
    | none =>
      unfold LiveTradeFeed.start at h
      rw [ht] at h
      rcases hi : s.initializeClient build steps with ⟨r, s2, lg2⟩
      rw [hi] at h
      match r with
      | .error e => simp at h
      | .ok none => simp at h
      | .ok (some false) => simp at h
      | .ok (some true) =>
        simp only [Prod.mk.injEq] at h
        have hfst : (s.initializeClient build steps).1 = .ok (some true) := by
          rw [hi]
        rw [initializeClient_fst] at hfst
        obtain ⟨p, hmem, hp⟩ := waitInit_ok_true _ _ hfst
        have hstop : s.stopped = false := by
          cases hs : s.stopped with
          | false => rfl
          | true => rw [hv hs p hmem] at hp; cases hp
        have hs2 : s2.stopped = s.stopped := by
          have := initializeClient_stopped s build steps
          rw [hi] at this
          exact this
        rw [← h.2.1]
        show s2.stopped = false
        rw [hs2, hstop]
  · intro s a r
    unfold LiveTradeFeed.stop
    split
    · split <;> rfl
    · rfl
  · intro s tid build steps ht
    unfold LiveTradeFeed.start
    rw [ht]
  · intro s build steps s1 lg h
    cases ht : s.thread with
    | some tid =>
      unfold LiveTradeFeed.start at h
      rw [ht] at h
      simp only [Prod.mk.injEq, Except.error.injEq, PyErr.exception.injEq] at h
      have := h.1
      simp at this
    | none =>
      unfold LiveTradeFeed.start at h
      rw [ht] at h
      rcases hi : s.initializeClient build steps with ⟨r, s2, lg2⟩
      rw [hi] at h
      match r with
      | .error e =>
        have hfst : (s.initializeClient build steps).1 = .error e := by
          rw [hi]
        have he := waitInit_error _ _ _ ((initializeClient_fst s build steps) ▸ hfst)
        simp only [Prod.mk.injEq, Except.error.injEq] at h
        rw [he] at h
        cases h.1
      | .ok none => simp at h
      | .ok (some true) => simp at h
      | .ok (some false) =>
        simp only [Prod.mk.injEq] at h
        rw [← h.2.1]
        rfl

/-- C6 witness. -/
theorem start_eof_transitions_witness :
    (({ LiveTradeFeed.initial with thread := some 0 }
        : LiveTradeFeed).start (.ok 1) []
      = (.error (.exception "Already running"),
         { LiveTradeFeed.initial with thread := some 0 }, []))
    ∧ (({ LiveTradeFeed.initial with thread := some 0 }
        : LiveTradeFeed).stop true false).1.eof = true
    ∧ (LiveTradeFeed.initial.start (.ok 0) [(false, true)]).2.1.eof = false
    ∧ ((({ LiveTradeFeed.initial with stopped := true }
        : LiveTradeFeed).start (.ok 5) [(true, false)]).2.1).eof = true := by
  refine ⟨start_eof_transitions.2.2.1
      { LiveTradeFeed.initial with thread := some 0 } 0 (.ok 1) [] (by decide),
    start_eof_transitions.2.1 { LiveTradeFeed.initial with thread := some 0 }
      true false, ?_, ?_⟩
  · exact start_eof_transitions.1 LiveTradeFeed.initial (.ok 0) [(false, true)]
      { LiveTradeFeed.initial with thread := some 0 }
      [.initializingClient, .waitingInit, .initCompleted]
      (by intro h p hp; cases h) (by decide)
  · exact start_eof_transitions.2.2.2
      { LiveTradeFeed.initial with stopped := true } (.ok 5) [(true, false)]
      ⟨[], some 5, true, true⟩
      [.initializingClient, .waitingInit, .initFailed] (by decide)

theorem sortIns_perm (g : Nat × List Entry) (b : Buffer) :
    List.Perm (sortIns g b) (g :: b) := by
  induction b with
  | nil => simp [sortIns]
  | cons h t ih =>
    by_cases hle : g.1 ≤ h.1
    · simp [sortIns, hle]
    · simp only [sortIns, if_neg hle]
      exact (List.Perm.cons h ih).trans (List.Perm.swap g h t)

theorem sortBuf_perm (b : Buffer) : List.Perm (sortBuf b) b := by
  induction b with
  | nil => exact List.Perm.refl []
  | cons g t ih =>
    exact (sortIns_perm g (sortBuf t)).trans (List.Perm.cons g ih)

theorem sortIns_keysSorted (g : Nat × List Entry) (b : Buffer)
    (hs : KeysSorted b) : KeysSorted (sortIns g b) := by
  induction b with
  | nil => simp [sortIns, KeysSorted]
  | cons h t ih =>
    rw [KeysSorted, List.pairwise_cons] at hs
    by_cases hle : g.1 ≤ h.1
    · simp only [sortIns, if_pos hle]
      rw [KeysSorted, List.pairwise_cons]
      refine ⟨fun g' hg' => ?_, List.pairwise_cons.mpr hs⟩
      rcases List.mem_cons.mp hg' with rfl | hmem
      · exact hle
      · exact le_trans hle (hs.1 g' hmem)
    · simp only [sortIns, if_neg hle]
      rw [KeysSorted, List.pairwise_cons]
      refine ⟨fun g' hg' => ?_, ih hs.2⟩
      rcases List.mem_cons.mp ((sortIns_perm g t).mem_iff.mp hg')
        with rfl | hmem
      · exact le_of_not_le hle
      · exact hs.1 g' hmem

theorem sortBuf_keysSorted (b : Buffer) : KeysSorted (sortBuf b) := by
  induction b with
  | nil => exact List.Pairwise.nil
  | cons g t ih => exact sortIns_keysSorted g (sortBuf t) ih

theorem distinct_sortBuf (b : Buffer) (hd : DistinctKeys b) :
    DistinctKeys (sortBuf b) := by
  rw [DistinctKeys] at hd ⊢
  exact ((sortBuf_perm b).pairwise_iff
    (fun hab hba => hab hba.symm)).mpr hd

theorem sortBuf_strictSorted (b : Buffer) (hd : DistinctKeys b) :
    KeysStrictSorted (sortBuf b) := by
  have h1 := sortBuf_keysSorted b
  have h2 := distinct_sortBuf b hd
  rw [KeysSorted] at h1
  rw [DistinctKeys] at h2
  rw [KeysStrictSorted]
  exact (h1.and h2).imp (fun h => lt_of_le_of_ne h.1 h.2)

theorem sortBuf_eq_self (b : Buffer) (hs : KeysStrictSorted b) :
    sortBuf b = b := by
  induction b with
  | nil => rfl
  | cons g t ih =>
    rw [KeysStrictSorted, List.pairwise_cons] at hs
    have ht : sortBuf t = t := ih hs.2
    show sortIns g (sortBuf t) = g :: t
    rw [ht]
    cases t with
    | nil => rfl
    | cons h t2 =>
      have hle : g.1 ≤ h.1 := le_of_lt (hs.1 h (List.mem_cons_self ..))
      simp [sortIns, hle]

theorem totalSize_sortIns (g : Nat × List Entry) (b : Buffer) :
    totalSize (sortIns g b) = g.2.length + totalSize b := by
  induction b with
  | nil => simp [sortIns, totalSize]
  | cons h t ih =>
    by_cases hle : g.1 ≤ h.1
    · simp [sortIns, hle, totalSize]
    · simp only [sortIns, if_neg hle, totalSize, ih]
      omega

theorem totalSize_sortBuf (b : Buffer) : totalSize (sortBuf b) = totalSize b := by
  induction b with
  | nil => rfl
  | cons g t ih =>
    show totalSize (sortIns g (sortBuf t)) = totalSize (g :: t)
    rw [totalSize_sortIns, ih]
    rfl

theorem noEmpty_sortBuf (b : Buffer) (h : NoEmpty b) : NoEmpty (sortBuf b) :=
  fun g hg => h g ((sortBuf_perm b).mem_iff.mp hg)

theorem mem_bufKeys_of_mem {g : Nat × List Entry} {b : Buffer} (h : g ∈ b) :
    g.1 ∈ bufKeys b :=
  List.mem_map_of_mem Prod.fst h

theorem bufKeys_sortBuf_mem (b : Buffer) (k : Nat) :
    k ∈ bufKeys (sortBuf b) ↔ k ∈ bufKeys b :=
  ((sortBuf_perm b).map Prod.fst).mem_iff

theorem bufKeys_bufferInsert_sub (b : Buffer) (dt : Nat) (e : Entry) :
    ∀ k ∈ bufKeys (bufferInsert b dt e), k ∈ bufKeys b ∨ k = dt := by
  induction b with
  | nil =>
    intro k hk
    simp [bufferInsert, bufKeys] at hk
    right
    exact hk
  | cons g t ih =>
    obtain ⟨k0, l⟩ := g
    intro k hk
    by_cases h0 : k0 = dt
    · simp only [bufferInsert, if_pos h0] at hk
      simp only [bufKeys, List.map_cons] at hk ⊢
      exact Or.inl hk
    · simp only [bufferInsert, if_neg h0] at hk
      simp only [bufKeys, List.map_cons, List.mem_cons] at hk ⊢
      rcases hk with rfl | hk
      · exact Or.inl (Or.inl rfl)
      · rcases ih k hk with hmem | rfl
        · exact Or.inl (Or.inr hmem)
        · exact Or.inr rfl

theorem distinct_bufferInsert (b : Buffer) (dt : Nat) (e : Entry)
    (hd : DistinctKeys b) : DistinctKeys (bufferInsert b dt e) := by
  induction b with
  | nil => simp [bufferInsert, DistinctKeys]
  | cons g t ih =>
    obtain ⟨k0, l⟩ := g
    rw [DistinctKeys, List.pairwise_cons] at hd
    by_cases h0 : k0 = dt
    · simp only [bufferInsert, if_pos h0]
      rw [DistinctKeys]
      exact List.pairwise_cons.mpr ⟨fun g' hg' => hd.1 g' hg', hd.2⟩
    · simp only [bufferInsert, if_neg h0]
      rw [DistinctKeys]
      refine List.pairwise_cons.mpr ⟨?_, ih hd.2⟩
      intro g' hg'
      rcases bufKeys_bufferInsert_sub t dt e g'.1 (mem_bufKeys_of_mem hg')
        with hk | hk
      · rw [bufKeys, List.mem_map] at hk
        obtain ⟨g2, hg2, hkeq⟩ := hk
        rw [← hkeq]
        exact hd.1 g2 hg2
      · rw [hk]
        exact h0

theorem noEmpty_bufferInsert (b : Buffer) (dt : Nat) (e : Entry)
    (h : NoEmpty b) : NoEmpty (bufferInsert b dt e) := by
  induction b with
  | nil =>
    intro g hg
    simp only [bufferInsert, List.mem_singleton] at hg
    rw [hg]
    simp
  | cons g0 t ih =>
    obtain ⟨k0, l⟩ := g0
    intro g hg
    by_cases h0 : k0 = dt
    · simp only [bufferInsert, if_pos h0] at hg
      rcases List.mem_cons.mp hg with rfl | hmem
      · simp
      · exact h g (List.mem_cons_of_mem _ hmem)
    · simp only [bufferInsert, if_neg h0] at hg
      rcases List.mem_cons.mp hg with rfl | hmem
      · exact h (k0, l) (List.mem_cons_self ..)
      · exact ih (fun g' hg' => h g' (List.mem_cons_of_mem _ hg')) g hmem

theorem sortedUpdate_sortIns_eq (k : Nat) (l : List Entry) (e : Entry) :
    ∀ S : Buffer, k ∉ bufKeys S →
    sortedUpdate (sortIns (k, l) S) k e = sortIns (k, l ++ [e]) S := by
  intro S
  induction S with
  | nil => intro _; simp [sortIns, sortedUpdate]
  | cons g t ih =>
    obtain ⟨k0, l0⟩ := g
    intro hk
    simp only [bufKeys, List.map_cons, List.mem_cons, not_or] at hk
    by_cases hle : k ≤ k0
    · simp [sortIns, sortedUpdate, hle]
    · have h1 : ¬ (k0 = k) := fun hh => hk.1 hh.symm
      have h2 : ¬ (k < k0) := fun hh => hle (le_of_lt hh)
      simp [sortIns, sortedUpdate, hle, h1, h2, ih hk.2]

theorem sortIns_sortedUpdate_comm (k : Nat) (l : List Entry) (dt : Nat)
    (e : Entry) (hne : k ≠ dt) :
    ∀ S : Buffer,
    sortIns (k, l) (sortedUpdate S dt e)
      = sortedUpdate (sortIns (k, l) S) dt e := by
  intro S
  induction S with
  | nil =>
    rcases Nat.lt_or_ge k dt with hlt | hge
    · have h1 : k ≤ dt := le_of_lt hlt
      have h2 : ¬ (dt < k) := by omega
      simp [sortIns, sortedUpdate, h1, h2, hne]
    · have hgt : dt < k := lt_of_le_of_ne hge (Ne.symm hne)
      have h1 : ¬ (k ≤ dt) := by omega
      simp [sortIns, sortedUpdate, h1, hgt, hne]
  | cons g t ih =>
    obtain ⟨k0, l0⟩ := g
    rcases eq_or_ne k0 dt with rfl | hne0
    · -- head key equals dt: the update lands in the head group
      rcases Nat.lt_or_ge k k0 with hlt | hge
      · have h1 : k ≤ k0 := le_of_lt hlt
        have h2 : ¬ (k0 < k) := by omega
        simp [sortIns, sortedUpdate, h1, h2, hne]
      · have hgt : k0 < k := lt_of_le_of_ne hge (Ne.symm hne)
        have h1 : ¬ (k ≤ k0) := by omega
        simp [sortIns, sortedUpdate, h1, hgt, hne]
    · rcases Nat.lt_or_ge dt k0 with hlt0 | hge0
      · -- dt < k0: a fresh (dt, [e]) group goes in front of the head
        rcases Nat.lt_or_ge k dt with hlt | hge
        · have h1 : k ≤ dt := le_of_lt hlt
          have h2 : k ≤ k0 := by omega
          have h3 : ¬ (dt < k) := by omega
          simp [sortIns, sortedUpdate, h1, h2, h3, hne, hne0, hlt0]
        · have hgt : dt < k := lt_of_le_of_ne hge (Ne.symm hne)
          have h1 : ¬ (k ≤ dt) := by omega
          rcases Nat.lt_or_ge k0 k with hk0k | hkk0
          · have h2 : ¬ (k ≤ k0) := by omega
            simp [sortIns, sortedUpdate, h1, h2, hgt, hne, hne0, hlt0]
          · have h2 : k ≤ k0 := hkk0
            simp [sortIns, sortedUpdate, h1, h2, hgt, hne, hne0, hlt0]
      · -- k0 < dt: the update recurses past the head
        have hlt0 : k0 < dt := lt_of_le_of_ne hge0 hne0
        have h4 : ¬ (dt < k0) := by omega
        rcases Nat.lt_or_ge k0 k with hk0k | hkk0
        · have h1 : ¬ (k ≤ k0) := by omega
          simp [sortIns, sortedUpdate, h1, h4, hne, hne0, ih]
        · have h1 : k ≤ k0 := hkk0
          have h2 : ¬ (dt < k) := by omega
          have h3 : k ≠ dt := hne
          simp [sortIns, sortedUpdate, h1, h2, h3, h4, hne0]

theorem sortBuf_bufferInsert (dt : Nat) (e : Entry) :
    ∀ b : Buffer, DistinctKeys b →
    sortBuf (bufferInsert b dt e) = sortedUpdate (sortBuf b) dt e := by
  intro b
  induction b with
  | nil => intro _; rfl
  | cons g t ih =>
    obtain ⟨k0, l0⟩ := g
    intro hd
    rw [DistinctKeys, List.pairwise_cons] at hd
    by_cases h0 : k0 = dt
    · subst h0
      simp only [bufferInsert, if_pos rfl]
      show sortIns (k0, l0 ++ [e]) (sortBuf t)
        = sortedUpdate (sortIns (k0, l0) (sortBuf t)) k0 e
      have hk : k0 ∉ bufKeys (sortBuf t) := by
        rw [bufKeys_sortBuf_mem]
        intro hmem
        rw [bufKeys, List.mem_map] at hmem
        obtain ⟨g', hg', hkeq⟩ := hmem
        exact hd.1 g' hg' hkeq.symm
      exact (sortedUpdate_sortIns_eq k0 l0 e (sortBuf t) hk).symm
    · simp only [bufferInsert, if_neg h0]
      show sortIns (k0, l0) (sortBuf (bufferInsert t dt e))
        = sortedUpdate (sortIns (k0, l0) (sortBuf t)) dt e
      rw [ih hd.2]
      exact sortIns_sortedUpdate_comm k0 l0 dt e h0 (sortBuf t)

theorem insLastK_append_left (x : Nat × Entry) (L R : List (Nat × Entry))
    (h : ∀ y ∈ L, y.1 ≤ x.1) : insLastK x (L ++ R) = L ++ insLastK x R := by
  induction L with
  | nil => rfl
  | cons y ys ih =>
    have hy : y.1 ≤ x.1 := h y (List.mem_cons_self ..)
    simp only [List.cons_append, insLastK, if_pos hy]
    show y :: insLastK x (ys ++ R) = y :: (ys ++ insLastK x R)
    rw [ih (fun z hz => h z (List.mem_cons_of_mem _ hz))]

theorem insLastK_all_gt (x : Nat × Entry) (R : List (Nat × Entry))
    (h : ∀ y ∈ R, x.1 < y.1) : insLastK x R = x :: R := by
  cases R with
  | nil => rfl
  | cons y ys =>
    have hy : ¬ (y.1 ≤ x.1) := by
      have := h y (List.mem_cons_self ..)
      omega
    simp [insLastK, hy]

theorem mem_flattenKeyed_key (S : Buffer) :
    ∀ y ∈ flattenKeyed S, y.1 ∈ bufKeys S := by
  induction S with
  | nil => intro y hy; cases hy
  | cons g t ih =>
    intro y hy
    simp only [flattenKeyed, List.mem_append] at hy
    rcases hy with hy | hy
    · rw [List.mem_map] at hy
      obtain ⟨e0, he0, heq⟩ := hy
      rw [← heq]
      simp [bufKeys]
    · simp only [bufKeys, List.map_cons, List.mem_cons]
      exact Or.inr (ih y hy)

theorem flattenKeyed_sortedUpdate (dt : Nat) (e : Entry) :
    ∀ S : Buffer, KeysStrictSorted S →
    flattenKeyed (sortedUpdate S dt e) = insLastK (dt, e) (flattenKeyed S) := by
  intro S
  induction S with
  | nil => intro _; rfl
  | cons g t ih =>
    obtain ⟨k, l⟩ := g
    intro hs
    rw [KeysStrictSorted, List.pairwise_cons] at hs
    rcases eq_or_ne k dt with rfl | hne
    · simp only [sortedUpdate, if_pos rfl, flattenKeyed]
      rw [insLastK_append_left (k, e) (l.map fun e0 => (k, e0))
        (flattenKeyed t) (by
          intro y hy
          rw [List.mem_map] at hy
          obtain ⟨e0, -, heq⟩ := hy
          rw [← heq])]
      rw [insLastK_all_gt (k, e) (flattenKeyed t) (by
        intro y hy
        have hk := mem_flattenKeyed_key t y hy
        rw [bufKeys, List.mem_map] at hk
        obtain ⟨g', hg', heq⟩ := hk
        have h1 : k < g'.1 := hs.1 g' hg'
        rw [← heq]
        exact h1)]
      simp
    · rcases Nat.lt_or_ge dt k with hlt | hge
      · simp only [sortedUpdate, if_neg hne, if_pos hlt, flattenKeyed]
        rw [insLastK_all_gt (dt, e)
          ((l.map fun e0 => (k, e0)) ++ flattenKeyed t) (by
            intro y hy
            rw [List.mem_append] at hy
            rcases hy with hy | hy
            · rw [List.mem_map] at hy
              obtain ⟨e0, -, heq⟩ := hy
              rw [← heq]
              exact hlt
            · have hk := mem_flattenKeyed_key t y hy
              rw [bufKeys, List.mem_map] at hk
              obtain ⟨g', hg', heq⟩ := hk
              have h1 : k < g'.1 := hs.1 g' hg'
              rw [← heq]
              show dt < g'.1
              omega)]
        simp
      · have hklt : k < dt := lt_of_le_of_ne hge hne
        have h2 : ¬ (dt < k) := by omega
        simp only [sortedUpdate, if_neg hne, if_neg h2, flattenKeyed]
        rw [ih hs.2]
        rw [insLastK_append_left (dt, e) (l.map fun e0 => (k, e0))
          (flattenKeyed t) (by
            intro y hy
            rw [List.mem_map] at hy
            obtain ⟨e0, -, heq⟩ := hy
            rw [← heq]
            exact le_of_lt hklt)]

theorem flattenKeyed_sortBuf_bufferInsert (b : Buffer) (dt : Nat) (e : Entry)
    (hd : DistinctKeys b) :
    flattenKeyed (sortBuf (bufferInsert b dt e))
      = insLastK (dt, e) (flattenKeyed (sortBuf b)) := by
  rw [sortBuf_bufferInsert dt e b hd,
    flattenKeyed_sortedUpdate dt e (sortBuf b) (sortBuf_strictSorted b hd)]

theorem buildFrom_flattenKeyed (trades : List Trade) :
    ∀ b : Buffer, DistinctKeys b →
    flattenKeyed (sortBuf
      (trades.foldl (fun bb t => bufferInsert bb t.dateTime (tradeEntry t)) b))
      = trades.foldl (fun acc t => insLastK (t.dateTime, tradeEntry t) acc)
          (flattenKeyed (sortBuf b)) := by
  induction trades with
  | nil => intro b _; rfl
  | cons t ts ih =>
    intro b hd
    simp only [List.foldl_cons]
    rw [ih (bufferInsert b t.dateTime (tradeEntry t))
      (distinct_bufferInsert b t.dateTime (tradeEntry t) hd)]
    rw [flattenKeyed_sortBuf_bufferInsert b t.dateTime (tradeEntry t) hd]

theorem buildBuffer_distinct (trades : List Trade) :
    DistinctKeys (buildBuffer trades) := by
  have aux : ∀ b : Buffer, DistinctKeys b → DistinctKeys
      (trades.foldl (fun bb t => bufferInsert bb t.dateTime (tradeEntry t)) b) := by
    induction trades with
    | nil => intro b hd; exact hd
    | cons t ts ih =>
      intro b hd
      simp only [List.foldl_cons]
      exact ih _ (distinct_bufferInsert b t.dateTime (tradeEntry t) hd)
  exact aux [] List.Pairwise.nil

theorem buildBuffer_noEmpty (trades : List Trade) :
    NoEmpty (buildBuffer trades) := by
  have aux : ∀ b : Buffer, NoEmpty b → NoEmpty
      (trades.foldl (fun bb t => bufferInsert bb t.dateTime (tradeEntry t)) b) := by
    induction trades with
    | nil => intro b hd; exact hd
    | cons t ts ih =>
      intro b hd
      simp only [List.foldl_cons]
      exact ih _ (noEmpty_bufferInsert b t.dateTime (tradeEntry t) hd)
  exact aux [] (fun g hg => nomatch hg)

theorem buildFeed_eq (trades : List Trade) :
    buildFeed trades
      = { LiveTradeFeed.initial with tradeBars := buildBuffer trades } := by
  have aux : ∀ (ts : List Trade) (s : LiveTradeFeed),
      ts.foldl (fun s t => s.onTrade t) s
        = { s with tradeBars := ts.foldl (fun bb t => bufferInsert bb t.dateTime (tradeEntry t)) s.tradeBars } := by
    intro ts
    induction ts with
    | nil => intro s; rfl
    | cons t ts2 ih =>
      intro s
      simp only [List.foldl_cons]
      rw [ih (s.onTrade t)]
      rfl
  exact aux trades LiveTradeFeed.initial

theorem insLastK_map_trade (x : Trade) (acc : List Trade) :
    insLastK (x.dateTime, tradeEntry x)
      (acc.map fun t => (t.dateTime, tradeEntry t))
      = (tradeInsLast x acc).map fun t => (t.dateTime, tradeEntry t) := by
  induction acc with
  | nil => rfl
  | cons y ys ih =>
    by_cases hle : y.dateTime ≤ x.dateTime
    · simp only [List.map_cons, insLastK, tradeInsLast, if_pos hle, ih]
    · simp only [List.map_cons, insLastK, tradeInsLast, if_neg hle,
        List.map_cons]

theorem stableSort_foldl_map (trades : List Trade) :
    ∀ acc : List Trade,
    trades.foldl (fun a t => insLastK (t.dateTime, tradeEntry t) a)
        (acc.map fun t => (t.dateTime, tradeEntry t))
      = (trades.foldl (fun a t => tradeInsLast t a) acc).map
          fun t => (t.dateTime, tradeEntry t) := by
  induction trades with
  | nil => intro acc; rfl
  | cons t ts ih =>
    intro acc
    simp only [List.foldl_cons]
    rw [insLastK_map_trade t acc]
    exact ih (tradeInsLast t acc)

theorem flattenEntries_eq (b : Buffer) :
    flattenEntries b = (flattenKeyed b).map Prod.snd := by
  induction b with
  | nil => rfl
  | cons g t ih =>
    simp only [flattenEntries, flattenKeyed, List.map_append, List.map_map, ih]
    congr 1
    simp [Function.comp]

theorem strictSorted_tail {g : Nat × List Entry} {t : Buffer}
    (h : KeysStrictSorted (g :: t)) : KeysStrictSorted t :=
  (List.pairwise_cons.mp h).2

theorem strictSorted_replace {dt : Nat} {l l2 : List Entry} {t : Buffer}
    (h : KeysStrictSorted ((dt, l) :: t)) :
    KeysStrictSorted ((dt, l2) :: t) := by
  rw [KeysStrictSorted, List.pairwise_cons] at h ⊢
  exact ⟨h.1, h.2⟩

theorem noEmpty_tail {g : Nat × List Entry} {t : Buffer}
    (h : NoEmpty (g :: t)) : NoEmpty t :=
  fun g' hg' => h g' (List.mem_cons_of_mem _ hg')

theorem noEmpty_replace {dt : Nat} {l l2 : List Entry} {t : Buffer}
    (h : NoEmpty ((dt, l) :: t)) (hl2 : l2 ≠ []) :
    NoEmpty ((dt, l2) :: t) := by
  intro g hg
  rcases List.mem_cons.mp hg with rfl | hm
  · exact hl2
  · exact h g (List.mem_cons_of_mem _ hm)

theorem getNextBars_pop (b : Buffer) (th : Option Nat) (er st : Bool)
    (dt : Nat) (e : Entry) (remaining : List Entry) (rest2 : Buffer)
    (hb : b ≠ []) (hsort : sortBuf b = (dt, e :: remaining) :: rest2) :
    LiveTradeFeed.getNextBars ⟨b, th, er, st⟩
      = .ok (some e,
          ⟨if remaining = [] then rest2 else (dt, remaining) :: rest2,
           th, er, st⟩) := by
  cases b with
  | nil => exact absurd rfl hb
  | cons g r => simp [LiveTradeFeed.getNextBars, hsort]

theorem drainFuel_sorted (n : Nat) :
    ∀ (b : Buffer) (th : Option Nat) (er st : Bool),
    KeysStrictSorted b → NoEmpty b → totalSize b ≤ n →
    drainFuel n ⟨b, th, er, st⟩ = (flattenEntries b, ⟨[], th, er, st⟩) := by
  induction n with
  | zero =>
    intro b th er st hs hne hsz
    cases hb : b with
    | nil => rfl
    | cons g t =>
      exfalso
      rw [hb] at hsz hne
      have hg := hne g (List.mem_cons_self ..)
      have hlen : g.2.length ≠ 0 :=
        fun h0 => hg (List.eq_nil_of_length_eq_zero h0)
      rw [totalSize] at hsz
      omega
  | succ n ih =>
    intro b th er st hs hne hsz
    cases b with
    | nil => rfl
    | cons g rest =>
      obtain ⟨dt, group⟩ := g
      have hsort : sortBuf ((dt, group) :: rest) = (dt, group) :: rest :=
        sortBuf_eq_self _ hs
      cases group with
      | nil => exact absurd rfl (hne (dt, []) (List.mem_cons_self ..))
      | cons e remaining =>
        have hg := getNextBars_pop ((dt, e :: remaining) :: rest) th er st
          dt e remaining rest (by simp) hsort
        simp only [drainFuel, hg]
        have hsz2 : remaining.length + totalSize rest ≤ n := by
          rw [totalSize] at hsz
          simp only [List.length_cons] at hsz
          omega
        by_cases hr : remaining = []
        · rw [if_pos hr]
          rw [ih rest th er st (strictSorted_tail hs) (noEmpty_tail hne)
            (by subst hr; simpa using hsz2)]
          subst hr
          simp [flattenEntries]
        · rw [if_neg hr]
          have hsz3 : totalSize ((dt, remaining) :: rest) ≤ n := by
            have he : totalSize ((dt, remaining) :: rest)
                = remaining.length + totalSize rest := rfl
            omega
          rw [ih ((dt, remaining) :: rest) th er st
            (strictSorted_replace hs)
            (noEmpty_replace hne hr) hsz3]
          simp [flattenEntries]

theorem drainAll_eq (b : Buffer) (th : Option Nat) (er st : Bool)
    (hd : DistinctKeys b) (hne : NoEmpty b) :
    LiveTradeFeed.drainAll ⟨b, th, er, st⟩
      = (flattenEntries (sortBuf b), ⟨[], th, er, st⟩) := by
  unfold LiveTradeFeed.drainAll
  cases hb : b with
  | nil => rfl
  | cons g rest =>
    have hbne : b ≠ [] := by rw [hb]; simp
    have hstrict : KeysStrictSorted (sortBuf b) := sortBuf_strictSorted b hd
    have hnes : NoEmpty (sortBuf b) := noEmpty_sortBuf b hne
    cases hsb : sortBuf b with
    | nil =>
      exfalso
      have := (sortBuf_perm b).length_eq
      rw [hsb, hb] at this
      simp at this
    | cons g2 rest2 =>
      obtain ⟨dt, group⟩ := g2
      cases group with
      | nil =>
        exact absurd rfl (by
          rw [hsb] at hnes
          exact hnes (dt, []) (List.mem_cons_self ..))
      | cons e remaining =>
        rw [hsb] at hstrict hnes
        have hg := getNextBars_pop b th er st dt e remaining rest2 hbne hsb
        have hsz : totalSize b = remaining.length + totalSize rest2 + 1 := by
          rw [← totalSize_sortBuf b, hsb, totalSize]
          simp only [List.length_cons]
          omega
        rw [← hb]
        rw [hsz]
        simp only [drainFuel, hg]
        by_cases hr : remaining = []
        · rw [if_pos hr]
          rw [drainFuel_sorted (remaining.length + totalSize rest2) rest2
            th er st (strictSorted_tail hstrict) (noEmpty_tail hnes)
            (by omega)]
          subst hr
          rw [hsb]
          simp [flattenEntries]
        · rw [if_neg hr]
          have hsz3 : totalSize ((dt, remaining) :: rest2)
              ≤ remaining.length + totalSize rest2 := by
            have he : totalSize ((dt, remaining) :: rest2)
                = remaining.length + totalSize rest2 := rfl
            omega
          rw [drainFuel_sorted (remaining.length + totalSize rest2)
            ((dt, remaining) :: rest2) th er st
            (strictSorted_replace hstrict) (noEmpty_replace hnes hr) hsz3]
          rw [hsb]
          simp [flattenEntries]

theorem tradeInsLast_mem (x y : Trade) (l : List Trade) :
    y ∈ tradeInsLast x l ↔ y = x ∨ y ∈ l := by
  induction l with
  | nil => simp [tradeInsLast]
  | cons z zs ih =>
    by_cases hle : z.dateTime ≤ x.dateTime
    · simp only [tradeInsLast, if_pos hle, List.mem_cons, ih]
      tauto
    · simp only [tradeInsLast, if_neg hle, List.mem_cons]

theorem tradeInsLast_sorted (x : Trade) (l : List Trade)
    (h : List.Pairwise (fun a b => a.dateTime ≤ b.dateTime) l) :
    List.Pairwise (fun a b => a.dateTime ≤ b.dateTime) (tradeInsLast x l) := by
  induction l with
  | nil => simp [tradeInsLast]
  | cons z zs ih =>
    rw [List.pairwise_cons] at h
    by_cases hle : z.dateTime ≤ x.dateTime
    · simp only [tradeInsLast, if_pos hle]
      rw [List.pairwise_cons]
      refine ⟨fun y hy => ?_, ih h.2⟩
      rcases (tradeInsLast_mem x y zs).mp hy with rfl | hm
      · exact hle
      · exact h.1 y hm
    · simp only [tradeInsLast, if_neg hle]
      rw [List.pairwise_cons]
      refine ⟨fun y hy => ?_, List.pairwise_cons.mpr h⟩
      rcases List.mem_cons.mp hy with rfl | hm
      · exact le_of_not_le hle
      · exact le_trans (le_of_not_le hle) (h.1 y hm)

theorem stableSort_sorted (trades : List Trade) :
    List.Pairwise (fun a b => a.dateTime ≤ b.dateTime)
      (stableSortByDateTime trades) := by
  have aux : ∀ (ts : List Trade) (acc : List Trade),
      List.Pairwise (fun a b => a.dateTime ≤ b.dateTime) acc →
      List.Pairwise (fun a b => a.dateTime ≤ b.dateTime)
        (ts.foldl (fun a t => tradeInsLast t a) acc) := by
    intro ts
    induction ts with
    | nil => intro acc h; exact h
    | cons t ts2 ih =>
      intro acc h
      simp only [List.foldl_cons]
      exact ih _ (tradeInsLast_sorted t acc h)
  exact aux trades [] List.Pairwise.nil

/-- C1: draining a fresh feed fed any sequence of TRADE events through
successive `getNextBars` calls emits exactly the trade sequence stably
sorted by timestamp — non-decreasing timestamps, FIFO arrival order
between equal timestamps — and `getNextBars` returns `None` whenever the
buffer is empty. -/
theorem getNextBars_ordered_drain :
    (∀ trades : List Trade,
        ((buildFeed trades).drainAll).1
          = (stableSortByDateTime trades).map tradeEntry)
    ∧ (∀ trades : List Trade,
        List.Pairwise (fun a b : Entry => a.2.dateTime ≤ b.2.dateTime)
          (((buildFeed trades).drainAll).1))
    ∧ (∀ s : LiveTradeFeed, s.tradeBars = [] →
        s.getNextBars = .ok (none, s)) := by
  have key : ∀ trades : List Trade,
      ((buildFeed trades).drainAll).1
        = (stableSortByDateTime trades).map tradeEntry := by
    intro trades
    rw [buildFeed_eq]
    have h0 : ({ LiveTradeFeed.initial with
        tradeBars := buildBuffer trades } : LiveTradeFeed)
        = ⟨buildBuffer trades, none, true, false⟩ := rfl
    rw [h0, drainAll_eq (buildBuffer trades) none true false
      (buildBuffer_distinct trades) (buildBuffer_noEmpty trades)]
    show flattenEntries (sortBuf (buildBuffer trades))
      = (stableSortByDateTime trades).map tradeEntry
    rw [flattenEntries_eq]
    have h2 : flattenKeyed (sortBuf (buildBuffer trades))
        = trades.foldl
            (fun acc t => insLastK (t.dateTime, tradeEntry t) acc) [] :=
      buildFrom_flattenKeyed trades [] List.Pairwise.nil
    rw [h2]
    have h3 : trades.foldl
        (fun acc t => insLastK (t.dateTime, tradeEntry t) acc) []
        = (stableSortByDateTime trades).map
            (fun t => (t.dateTime, tradeEntry t)) :=
      stableSort_foldl_map trades []
    rw [h3, List.map_map]
    rfl
  refine ⟨key, fun trades => ?_, fun s h => ?_⟩
  · rw [key trades, List.pairwise_map]
    exact (stableSort_sorted trades).imp (fun h => h)
  · simp [LiveTradeFeed.getNextBars, h]

/-- C1 witness. -/
theorem getNextBars_ordered_drain_witness :
    ((buildFeed [sampleTrade, sampleTrade2, sampleTrade3]).drainAll).1
      = (stableSortByDateTime
          [sampleTrade, sampleTrade2, sampleTrade3]).map tradeEntry
    ∧ LiveTradeFeed.initial.getNextBars = .ok (none, LiveTradeFeed.initial) :=
  ⟨getNextBars_ordered_drain.1 [sampleTrade, sampleTrade2, sampleTrade3],
   getNextBars_ordered_drain.2.2 LiveTradeFeed.initial rfl⟩

/-- C3: the trade buffer never holds an empty entry list: the invariant is
preserved by every `__onTrade` insertion and by every `getNextBars` pop
(a timestamp key is deleted as soon as its list empties), and once all
buffered bars are drained the buffer is entirely empty, with no residual
keys. -/
theorem tradeBars_never_empty_lists :
    (∀ (s : LiveTradeFeed) (t : Trade), NoEmpty s.tradeBars →
        NoEmpty ((s.onTrade t).tradeBars))
    ∧ (∀ (s s1 : LiveTradeFeed) (r : Option Entry), NoEmpty s.tradeBars →
        s.getNextBars = .ok (r, s1) → NoEmpty s1.tradeBars)
    ∧ (∀ trades : List Trade,
        (((buildFeed trades).drainAll).2).tradeBars = []) := by
  refine ⟨fun s t h => noEmpty_bufferInsert _ _ _ h, ?_, ?_⟩
  · intro s s1 r h hg
    unfold LiveTradeFeed.getNextBars at hg
    cases hb : s.tradeBars with
    | nil =>
      rw [hb] at hg
      simp only [Prod.mk.injEq, Except.ok.injEq] at hg
      rw [← hg.2]
      exact h
    | cons g rest =>
      rw [hb] at hg
      have hnes : NoEmpty (sortBuf (g :: rest)) :=
        noEmpty_sortBuf (g :: rest) (hb ▸ h)
      cases hsb : sortBuf (g :: rest) with
      | nil =>
        rw [hsb] at hg
        simp only [Prod.mk.injEq, Except.ok.injEq] at hg
        rw [← hg.2]
        exact h
      | cons g2 rest2 =>
        obtain ⟨dt, group⟩ := g2
        cases group with
        | nil =>
          rw [hsb] at hg
          simp at hg
        | cons e remaining =>
          rw [hsb] at hg
          simp only [Prod.mk.injEq, Except.ok.injEq] at hg
          rw [← hg.2]
          rw [hsb] at hnes
          show NoEmpty
            (if remaining = [] then rest2 else (dt, remaining) :: rest2)
          by_cases hr : remaining = []
          · rw [if_pos hr]
            exact noEmpty_tail hnes
          · rw [if_neg hr]
            exact noEmpty_replace hnes hr
  · intro trades
    rw [buildFeed_eq]
    have h0 : ({ LiveTradeFeed.initial with
        tradeBars := buildBuffer trades } : LiveTradeFeed)
        = ⟨buildBuffer trades, none, true, false⟩ := rfl
    rw [h0, drainAll_eq (buildBuffer trades) none true false
      (buildBuffer_distinct trades) (buildBuffer_noEmpty trades)]

/-- C3 witness. -/
theorem tradeBars_never_empty_lists_witness :
    NoEmpty ((LiveTradeFeed.initial.onTrade sampleTrade).tradeBars)
    ∧ NoEmpty (([] : Buffer))
    ∧ (((buildFeed [sampleTrade]).drainAll).2).tradeBars = [] :=
  ⟨tradeBars_never_empty_lists.1 LiveTradeFeed.initial sampleTrade
      (by decide),
   tradeBars_never_empty_lists.2.1
      ⟨[(20, [tradeEntry sampleTrade])], none, true, false⟩
      ⟨[], none, true, false⟩ (some (tradeEntry sampleTrade))
      (by decide) (by decide),
   tradeBars_never_empty_lists.2.2 [sampleTrade]⟩
